import Mathlib

/-!
Verification of the routing and request-semantics core of `u-twitter`
(`src/src/utils.js`) against its specification.  The JavaScript functions are
shallowly embedded as executable Lean definitions; machine-level collaborators
(the host `Date.parse`, the regex engine's construction-time checks) are made
explicit parameters or small explicit models, documented at their definition
sites.
-/

set_option maxHeartbeats 1000000

namespace USpec

/-- JavaScript string truthiness for an optional header value: an absent
header (`undefined`) and the empty string are falsy, every other string is
truthy. -/
def truthy : Option String → Bool
  | none => false
  | some s => s != ""

/-- JS `hay.includes(c)` / `hay.indexOf(c) !== -1` for a one-character
needle: character membership. -/
def inclC (s : String) (c : Char) : Bool := s.data.contains c

/-- JS `hay.indexOf(needle) !== -1` / `hay.includes(needle)` for a string
needle: substring containment. -/
def containsSub (needle hay : String) : Bool :=
  decide (needle.data <:+: hay.data)

/-- Port of `parseHttpDate` (src/src/utils.js:266-269):
`const timestamp = date && Date.parse(date)` followed by the `typeof` guard.
An absent header or an empty string is falsy, so the result is `NaN`
(modelled as `none`); otherwise the result is whatever the host `Date.parse`
returns.  The host parser is the explicit parameter `dp` (`some t` for a
string parsing to timestamp `t`, `none` for `NaN`), so every theorem below
holds for an arbitrary host date parser. -/
def parseHttpDate (dp : String → Option Int) : Option String → Option Int
  | none => none
  | some s => if s = "" then none else dp s

/-- `str.substring(s, e)` on a character list. -/
def jsSubstring (cs : List Char) (s e : Nat) : List Char :=
  (cs.drop s).take (e - s)

/-- Port of the scanning loop of `parseTokenList` (src/src/utils.js:232-263):
`all` is the whole header, the first argument the characters from position
`i` on, `s`/`e` the `start`/`end` indices of the JavaScript loop and `acc`
the accumulated token list. -/
def ptlGo (all : List Char) : List Char → Nat → Nat → Nat → List (List Char) → List (List Char)
  | [], _, s, e, acc => if s ≠ e then acc ++ [jsSubstring all s e] else acc
  | c :: rest, i, s, e, acc =>
    if c = ' ' then
      if s = e then ptlGo all rest (i+1) (i+1) (i+1) acc
      else ptlGo all rest (i+1) s e acc
    else if c = ',' then
      ptlGo all rest (i+1) (i+1) (i+1) (if s ≠ e then acc ++ [jsSubstring all s e] else acc)
    else
      ptlGo all rest (i+1) s (i+1) acc

/-- Port of `parseTokenList` (src/src/utils.js:232-263): splits a
comma-and-space separated header value into its non-empty tokens. -/
def parseTokenList (str : String) : List String :=
  (ptlGo str.data str.data 0 0 0 []).map fun cs => ⟨cs⟩

/-- The request headers consulted by the conditional evaluator; `none`
models an absent header. -/
structure Req where
  ifMatch : Option String
  ifUnmodifiedSince : Option String
  ifRange : Option String

/-- The response headers consulted by the conditional evaluator through
`res.get`; `none` models an unset header. -/
structure Res where
  etag : Option String
  lastModified : Option String

/-- Port of `isPreconditionFailure` (src/src/utils.js:271-290), with the
host date parser as the explicit parameter `dp`.  The JS
`return !etag || (match !== '*' && tokens.every(...))` is rendered by the
`match` on `res.etag` (JS `!etag` is true for an unset or empty header). -/
def isPreconditionFailure (dp : String → Option Int) (req : Req) (res : Res) : Bool :=
  if truthy req.ifMatch then
    let m := req.ifMatch.getD ""
    match res.etag with
    | none => true
    | some et =>
      if et = "" then true
      else
        m != "*" && (parseTokenList m).all fun tok =>
          tok != et && tok != "W/" ++ et && "W/" ++ tok != et
  else
    match parseHttpDate dp req.ifUnmodifiedSince with
    | none => false
    | some t =>
      match parseHttpDate dp res.lastModified with
      | none => true
      | some l => decide (l > t)

/-- Port of `isRangeFresh` (src/src/utils.js:302-317), with the host date
parser as the explicit parameter `dp`.  The final JS comparison
`parseHttpDate(lastModified) <= parseHttpDate(ifRange)` is false whenever
either side is `NaN`, which the `match` renders by returning `false` unless
both sides parse. -/
def isRangeFresh (dp : String → Option Int) (req : Req) (res : Res) : Bool :=
  match req.ifRange with
  | none => true
  | some ir =>
    if ir = "" then true
    else if inclC ir '"' then
      match res.etag with
      | none => false
      | some et => et != "" && containsSub et ir
    else
      match parseHttpDate dp res.lastModified, parseHttpDate dp (some ir) with
      | some l, some r => decide (l ≤ r)
      | _, _ => false

/-- A concrete stand-in for the host `Date.parse`, used only to instantiate
the parser parameter in witnesses and counterexamples: it parses two fixed
HTTP-date strings and fails (`NaN`) on everything else, as `Date.parse` does
on non-date text such as `"x"`. -/
def dpEx : String → Option Int
  | "Sat, 01 Jan 2000 00:00:00 GMT" => some 946684800000
  | "Sat, 01 Jan 2022 00:00:00 GMT" => some 1640995200000
  | _ => none

/-- C1, counterexample: a request carrying `If-Match: *` sent against a
response with no current entity tag *does* fail the precondition
(`isPreconditionFailure` returns `true`), because the source returns
`!etag || ...` before ever looking at the `*`.  The claim asserts the result
is `false` regardless of whether a current entity tag exists. -/
theorem ifMatch_star_no_etag_fails :
    isPreconditionFailure dpEx ⟨some "*", none, none⟩ ⟨none, none⟩ = true := by
  decide

/-- C1, amended: when `If-Match` is the literal `*`, the precondition fails
exactly when the response has no truthy current entity tag; in particular it
never fails when a non-empty tag exists, regardless of the tag's value. -/
theorem ifMatch_star_amended (dp : String → Option Int) (req : Req) (res : Res)
    (h : req.ifMatch = some "*") :
    isPreconditionFailure dp req res = !(truthy res.etag) := by
  cases res with
  | mk et lm =>
    cases et with
    | none => simp [isPreconditionFailure, h, truthy]
    | some s =>
      by_cases hs : s = "" <;>
        simp [isPreconditionFailure, h, truthy, hs]

/-- Witness for C1 (amended) at a concrete request and response. -/
theorem ifMatch_star_amended_witness :
    isPreconditionFailure dpEx ⟨some "*", none, none⟩ ⟨some "xyz", none⟩ = false := by
  have h := ifMatch_star_amended dpEx ⟨some "*", none, none⟩ ⟨some "xyz", none⟩ rfl
  simpa [truthy] using h

/-- C2, counterexample: a non-quoted `If-Range` value that does not parse as
an HTTP date, on a response with no `Last-Modified`, makes `isRangeFresh`
return `false` (range stale), not `true` as the claim says: the JS comparison
`NaN <= NaN` is false. -/
theorem isRangeFresh_unparsable_is_stale :
    inclC "x" '"' = false ∧
    parseHttpDate dpEx (some "x") = none ∧
    isRangeFresh dpEx ⟨none, none, some "x"⟩ ⟨none, none⟩ = false := by
  refine ⟨by decide, by decide, by decide⟩

/-- C2, amended: `isRangeFresh` never raises (it is a total function), and
for a present, non-empty, non-quoted `If-Range` header the range is fresh
exactly when *both* the header and the response's `Last-Modified` parse as
HTTP dates and the last-modified date is not strictly newer than the
header's date; an unparsable date on either side degrades to range-stale
(`false`), not fresh. -/
theorem isRangeFresh_nonquoted_amended (dp : String → Option Int) (req : Req) (res : Res)
    (s : String) (h : req.ifRange = some s) (hne : s ≠ "") (hq : inclC s '"' = false) :
    (isRangeFresh dp req res = true ↔
      ∃ l r, parseHttpDate dp res.lastModified = some l ∧ dp s = some r ∧ l ≤ r) := by
  unfold isRangeFresh
  rw [h]
  simp only [if_neg hne, hq, Bool.false_eq_true, if_false]
  have hps : parseHttpDate dp (some s) = dp s := by simp [parseHttpDate, hne]
  rw [hps]
  cases hl : parseHttpDate dp res.lastModified with
  | none => simp
  | some l =>
    cases hr : dp s with
    | none => simp
    | some r => simp

/-- Witness for C2 (amended) at a concrete request, response and host date
parser: both dates parse and last-modified is older, so the range is fresh. -/
theorem isRangeFresh_nonquoted_amended_witness :
    isRangeFresh dpEx
      ⟨none, none, some "Sat, 01 Jan 2022 00:00:00 GMT"⟩
      ⟨none, some "Sat, 01 Jan 2000 00:00:00 GMT"⟩ = true := by
  apply (isRangeFresh_nonquoted_amended dpEx
      ⟨none, none, some "Sat, 01 Jan 2022 00:00:00 GMT"⟩
      ⟨none, some "Sat, 01 Jan 2000 00:00:00 GMT"⟩
      "Sat, 01 Jan 2022 00:00:00 GMT" rfl (by decide) (by decide)).mpr
  exact ⟨946684800000, 1640995200000, by decide, by decide, by decide⟩

/-- C9: with no `If-Match` header and an `If-Unmodified-Since` header that
parses to a valid timestamp, the precondition fails exactly when the
response's `Last-Modified` is unparsable as an HTTP date or parses to a
strictly newer timestamp. -/
theorem precondition_unmodified_since (dp : String → Option Int) (req : Req) (res : Res)
    (t : Int) (hm : req.ifMatch = none)
    (hu : parseHttpDate dp req.ifUnmodifiedSince = some t) :
    (isPreconditionFailure dp req res = true ↔
      parseHttpDate dp res.lastModified = none ∨
      ∃ l, parseHttpDate dp res.lastModified = some l ∧ t < l) := by
  unfold isPreconditionFailure
  rw [hm]
  simp only [truthy, Bool.false_eq_true, if_false, hu]
  cases hl : parseHttpDate dp res.lastModified with
  | none => simp
  | some l => simp [gt_iff_lt]

/-- Witness for C9 at a concrete request and response: the header parses,
`Last-Modified` does not, so the precondition fails. -/
theorem precondition_unmodified_since_witness :
    isPreconditionFailure dpEx ⟨none, some "Sat, 01 Jan 2022 00:00:00 GMT", none⟩
      ⟨none, none⟩ = true := by
  apply (precondition_unmodified_since dpEx
      ⟨none, some "Sat, 01 Jan 2022 00:00:00 GMT", none⟩ ⟨none, none⟩
      1640995200000 rfl (by decide)).mpr
  exact Or.inl (by decide)

/-- Length of `dropWhile` never exceeds the input's length (used for the
termination of `rdsGo`). -/
theorem lengthDropWhileLe (p : Char → Bool) :
    ∀ (l : List Char), (l.dropWhile p).length ≤ l.length := by
  intro l
  induction l with
  | nil => simp
  | cons a t ih =>
    by_cases hp : p a
    · rw [List.dropWhile_cons_of_pos hp]; exact Nat.le_succ_of_le ih
    · rw [List.dropWhile_cons_of_neg hp]

/-- Port of `path.replace(/\/{2,}/g, '/')` from `removeDuplicateSlashes`
(src/src/utils.js:34-36).  The global regex replaces each maximal run of two
or more slashes with a single slash and leaves single slashes unchanged, so
on each slash the scan emits one slash and drops the rest of the run. -/
def rdsGo : List Char → List Char
  | [] => []
  | c :: rest =>
    if c = '/' then '/' :: rdsGo (rest.dropWhile fun x => x = '/')
    else c :: rdsGo rest
termination_by l => l.length
decreasing_by
  · exact Nat.lt_succ_of_le (lengthDropWhileLe _ _)
  · simp

/-- Port of `removeDuplicateSlashes` (src/src/utils.js:34-36). -/
def removeDuplicateSlashes (s : String) : String := ⟨rdsGo s.data⟩

/-- `true` iff a character list never contains two consecutive slashes. -/
def noDoubleSlash : List Char → Bool
  | [] => true
  | [_] => true
  | a :: b :: rest => !(a = '/' && b = '/') && noDoubleSlash (b :: rest)

theorem rdsGo_nil : rdsGo [] = [] := by rw [rdsGo]

theorem dropWhile_head_false {p : Char → Bool} : ∀ (l : List Char) (c : Char) (r : List Char),
    l.dropWhile p = c :: r → p c = false := by
  intro l
  induction l with
  | nil => intro c r h; simp [List.dropWhile] at h
  | cons a t ih =>
    intro c r h
    by_cases hp : p a
    · rw [List.dropWhile_cons_of_pos hp] at h; exact ih _ _ h
    · rw [List.dropWhile_cons_of_neg hp] at h
      cases h
      simpa using hp

theorem rdsGo_cons (c : Char) (r : List Char) :
    rdsGo (c :: r) = c :: (if c = '/' then rdsGo (r.dropWhile fun x => x = '/') else rdsGo r) := by
  rw [rdsGo]
  by_cases h : c = '/'
  · subst h; simp
  · simp [h]

theorem noDoubleSlash_cons_of (a : Char) (l : List Char)
    (h1 : noDoubleSlash l = true)
    (h2 : ∀ b r, l = b :: r → (a = '/' ∧ b = '/') → False) :
    noDoubleSlash (a :: l) = true := by
  cases l with
  | nil => rfl
  | cons b r =>
    have : (a = '/' && b = '/') = false := by
      by_cases ha : a = '/'
      · by_cases hb : b = '/'
        · exact absurd ⟨ha, hb⟩ (fun hc => h2 b r rfl hc)
        · simp [hb]
      · simp [ha]
    simp [noDoubleSlash, this, h1]

theorem noDoubleSlash_rdsGo : ∀ (n : Nat) (l : List Char), l.length ≤ n →
    noDoubleSlash (rdsGo l) = true := by
  intro n
  induction n with
  | zero =>
    intro l hl
    have : l = [] := List.eq_nil_of_length_eq_zero (Nat.le_zero.mp hl)
    subst this; rw [rdsGo_nil]; rfl
  | succ n ih =>
    intro l hl
    cases l with
    | nil => rw [rdsGo_nil]; rfl
    | cons c rest =>
      simp only [List.length_cons, Nat.succ_le_succ_iff] at hl
      rw [rdsGo_cons]
      by_cases hc : c = '/'
      · subst hc
        simp only [if_pos rfl]
        set r' := rest.dropWhile (fun x => x = '/') with hr'
        have hlen : r'.length ≤ n :=
          le_trans (lengthDropWhileLe _ _) hl
        have ihr := ih r' hlen
        apply noDoubleSlash_cons_of _ _ ihr
        intro b r hbr hcc
        cases hr : r' with
        | nil => rw [hr] at hbr; rw [rdsGo_nil] at hbr; exact List.noConfusion hbr
        | cons x xs =>
          rw [hr, rdsGo_cons] at hbr
          have hb : b = x := by injection hbr with h1 _; exact h1.symm
          have : (fun x => decide (x = '/')) x = false := dropWhile_head_false rest x xs (hr' ▸ hr)
          simp at this
          exact this (hb ▸ hcc.2)
      · simp only [if_neg hc]
        have ihr := ih rest hl
        apply noDoubleSlash_cons_of _ _ ihr
        intro b r hbr hcc
        exact hc hcc.1

theorem noDoubleSlash_tail (a : Char) (l : List Char)
    (h : noDoubleSlash (a :: l) = true) : noDoubleSlash l = true := by
  cases l with
  | nil => rfl
  | cons b r =>
    simp only [noDoubleSlash, Bool.and_eq_true] at h
    exact h.2

theorem rdsGo_of_noDoubleSlash : ∀ (n : Nat) (l : List Char), l.length ≤ n →
    noDoubleSlash l = true → rdsGo l = l := by
  intro n
  induction n with
  | zero =>
    intro l hl _
    have : l = [] := List.eq_nil_of_length_eq_zero (Nat.le_zero.mp hl)
    subst this; exact rdsGo_nil
  | succ n ih =>
    intro l hl hnd
    cases l with
    | nil => exact rdsGo_nil
    | cons c rest =>
      simp only [List.length_cons, Nat.succ_le_succ_iff] at hl
      rw [rdsGo_cons]
      have hrest := noDoubleSlash_tail c rest hnd
      by_cases hc : c = '/'
      · subst hc
        have hdw : rest.dropWhile (fun x => x = '/') = rest := by
          cases rest with
          | nil => rfl
          | cons b r =>
            have hb : b ≠ '/' := by
              intro hb
              subst hb
              simp [noDoubleSlash] at hnd
            exact List.dropWhile_cons_of_neg (by simpa using hb)
        rw [if_pos rfl, hdw, ih rest hl hrest]
      · rw [if_neg hc, ih rest hl hrest]

/-- C10: `removeDuplicateSlashes` is idempotent and its output never
contains two consecutive slashes. -/
theorem removeDuplicateSlashes_idem (s : String) :
    noDoubleSlash (removeDuplicateSlashes s).data = true ∧
    removeDuplicateSlashes (removeDuplicateSlashes s) = removeDuplicateSlashes s := by
  constructor
  · exact noDoubleSlash_rdsGo s.data.length s.data le_rfl
  · show (⟨rdsGo (rdsGo s.data)⟩ : String) = ⟨rdsGo s.data⟩
    congr 1
    exact rdsGo_of_noDoubleSlash (rdsGo s.data).length _ le_rfl
      (noDoubleSlash_rdsGo s.data.length s.data le_rfl)

/-- The polymorphic `trust proxy` configuration value accepted by
`compileTrust` (src/src/utils.js:161-181), one constructor per JavaScript
shape the source's `typeof` dispatch can observe: a predicate function,
a boolean, a (non-`NaN`) number, `NaN` (also `typeof 'number'`), a string,
an array of strings, and any other value (of which only truthiness is
observable downstream, via `val || []`). -/
inductive TrustVal where
  | fn (f : String → Nat → Bool)
  | boolean (b : Bool)
  | num (n : Int)
  | nan
  | str (s : String)
  | strList (ss : List String)
  | other (truthyShape : Bool)

/-- Modelled from the spec: the named aliases (`loopback`, `linklocal`,
`uniquelocal`) of the `proxy-addr` dependency, which is not part of this
repository's sources, each standing for fixed address ranges. -/
def aliasAddrs : String → Option (List String)
  | "loopback" => some ["127.0.0.1", "::1"]
  | "linklocal" => some ["169.254.0.0/16", "fe80::/10"]
  | "uniquelocal" => some ["10.0.0.0/8", "172.16.0.0/12", "192.168.0.0/16", "fc00::/7"]
  | _ => none

/-- Modelled from the spec: whether one entry of the compiled trust list
matches an address.  Literal addresses are compared for equality and an
alias stands for its ranges; CIDR-mask arithmetic is below the spec's level
of detail and is exercised by no claim, so a range matches an address only
when written identically; an empty entry names no address or range and so
matches nothing. -/
def addrEntryMatches (addr entry : String) : Bool :=
  if entry = "" then false
  else match aliasAddrs entry with
    | some rs => rs.contains addr
    | none => addr == entry

/-- Modelled from the spec: `proxyaddr.compile` of the `proxy-addr`
dependency (not part of this repository's sources).  A recognized shape — a
list of strings — compiles to a membership test over the trust list; an
unrecognized shape (`none`) degrades to "trust nobody"; per the spec it
never raises. -/
def proxyAddrCompile : Option (List String) → String → Nat → Bool
  | none, _, _ => false
  | some entries, addr, _ => entries.any fun e => addrEntryMatches addr e

/-- JS whitespace for `String.prototype.trim`. -/
def isWs (c : Char) : Bool :=
  c == ' ' || c == '\t' || c == '\n' || c == '\r'

/-- JS `s.trim()`: strip whitespace from both ends. -/
def jsTrim (cs : List Char) : List Char :=
  ((cs.dropWhile isWs).reverse.dropWhile isWs).reverse

/-- JS `s.split(',')`: split on every comma; the empty string yields
`[""]`. -/
def splitComma : List Char → List (List Char)
  | [] => [[]]
  | c :: rest =>
    if c = ',' then [] :: splitComma rest
    else
      match splitComma rest with
      | t :: ts => (c :: t) :: ts
      | [] => [[c]]

/-- Port of `compileTrust` (src/src/utils.js:161-181).  Functions are
returned unchanged; `true` trusts every hop; a number `n` yields the hop
test `i < n` (for `NaN` the JS comparison `i < NaN` is always false); a
string is split on commas, trimmed, and handed to `proxyaddr.compile`; all
remaining values reach `proxyaddr.compile(val || [])`, so a falsy value
becomes the empty trust list and a truthy unrecognized shape is passed
through as-is. -/
def compileTrust : TrustVal → String → Nat → Bool
  | .fn f => f
  | .boolean true => fun _ _ => true
  | .boolean false => proxyAddrCompile (some [])
  | .num n => fun _ i => decide ((i : Int) < n)
  | .nan => fun _ _ => false
  | .str s => proxyAddrCompile (some ((splitComma s.data).map fun cs => (⟨jsTrim cs⟩ : String)))
  | .strList ss => proxyAddrCompile (some ss)
  | .other t => if t then proxyAddrCompile none else proxyAddrCompile (some [])

/-- C6: compiling a non-negative integer hop count `N` yields the predicate
`fun addr i => i < N`, for every address and hop index; in particular for
`N = 2` hops `0` and `1` are trusted and hop `2` is not. -/
theorem compileTrust_hops :
    (∀ (N : Nat) (addr : String) (i : Nat),
      compileTrust (.num (N : Int)) addr i = decide (i < N)) ∧
    ∀ addr : String,
      compileTrust (.num 2) addr 0 = true ∧
      compileTrust (.num 2) addr 1 = true ∧
      compileTrust (.num 2) addr 2 = false := by
  constructor
  · intro N addr i
    simp only [compileTrust]
    rw [decide_eq_decide]
    exact Int.ofNat_lt
  · intro addr
    exact ⟨rfl, rfl, rfl⟩

/-- C7: `compileTrust` is total (it never raises; the no-raise behaviour of
the `proxy-addr` delegation target is the spec-modelled `proxyAddrCompile`),
and every falsy configuration value — `false`, `0`, `NaN`, the empty
string, a falsy unrecognized value — as well as every truthy unrecognized
shape compiles to the "trust nobody" predicate, false at every address and
hop index. -/
theorem compileTrust_falsy_trusts_nobody :
    (∀ addr i, compileTrust (.boolean false) addr i = false) ∧
    (∀ addr i, compileTrust (.num 0) addr i = false) ∧
    (∀ addr i, compileTrust .nan addr i = false) ∧
    (∀ addr i, compileTrust (.str "") addr i = false) ∧
    (∀ t addr i, compileTrust (.other t) addr i = false) := by
  refine ⟨fun addr i => rfl, fun addr i => ?_, fun addr i => rfl, fun addr i => rfl,
    fun t addr i => ?_⟩
  · simp only [compileTrust]
    rw [decide_eq_false_iff_not]
    exact Int.not_lt.mpr (Int.ofNat_nonneg i)
  · cases t <;> rfl

/-- A route pattern as the classification predicates receive it: either a
string template or a precompiled `RegExp` (for which only the `instanceof`
test matters). -/
inductive RoutePat where
  | str (s : String)
  | regex

/-- Port of `needsConversionToRegex` (src/src/utils.js:57-75). -/
def needsConversionToRegex : RoutePat → Bool
  | .regex => false
  | .str p =>
    if p = "/*" then false
    else
      inclC p '*' || inclC p '?' || inclC p '+' || inclC p '(' || inclC p ')' ||
        inclC p ':' || inclC p '\x7b' || inclC p '\x7d' || inclC p '[' || inclC p ']'

/-- Port of `canBeOptimized` (src/src/utils.js:77-98); note its character
list omits the colon that `needsConversionToRegex` checks. -/
def canBeOptimized : RoutePat → Bool
  | .str p =>
    if p = "/*" then false
    else
      !(inclC p '*' || inclC p '?' || inclC p '+' || inclC p '(' || inclC p ')' ||
        inclC p '\x7b' || inclC p '\x7d' || inclC p '[' || inclC p ']')
  | .regex => false

/-- The nine characters `canBeOptimized` excludes (no colon among them). -/
def optChars : List Char := ['*', '?', '+', '(', ')', '\x7b', '\x7d', '[', ']']

/-- C4: `canBeOptimized` holds exactly for string patterns other than `/*`
containing none of the nine characters (colon not among them) and never for
a compiled regex; `needsConversionToRegex` is additionally true for every
string pattern containing a colon; hence a pattern such as `/user/:id` —
not `/*`, has a colon, none of the nine — satisfies both predicates at
once. -/
theorem classification_asymmetry :
    (∀ p : String, canBeOptimized (.str p) = true ↔
      (p ≠ "/*" ∧ ∀ c ∈ optChars, p.data.contains c = false)) ∧
    canBeOptimized .regex = false ∧
    (∀ p : String, inclC p ':' = true → needsConversionToRegex (.str p) = true) ∧
    (∀ p : String, p ≠ "/*" → inclC p ':' = true →
      (∀ c ∈ optChars, p.data.contains c = false) →
      canBeOptimized (.str p) = true ∧ needsConversionToRegex (.str p) = true) := by
  have h1 : ∀ p : String, canBeOptimized (.str p) = true ↔
      (p ≠ "/*" ∧ ∀ c ∈ optChars, p.data.contains c = false) := by
    intro p
    show (if p = "/*" then false else _) = true ↔ _
    by_cases h : p = "/*"
    · simp [h]
    · simp [h, inclC, optChars]
      tauto
  have h3 : ∀ p : String, inclC p ':' = true → needsConversionToRegex (.str p) = true := by
    intro p hc
    show (if p = "/*" then false else _) = true
    by_cases h : p = "/*"
    · subst h; exact absurd hc (by decide)
    · simp [h, hc]
  refine ⟨h1, rfl, h3, fun p hp hc hnone => ⟨(h1 p).mpr ⟨hp, hnone⟩, h3 p hc⟩⟩

/-- Witness for C4 at the spec's own example `/user/:id`: optimizable and
conversion-needing at once. -/
theorem classification_asymmetry_witness :
    canBeOptimized (.str "/user/:id") = true ∧
    needsConversionToRegex (.str "/user/:id") = true :=
  classification_asymmetry.2.2.2 "/user/:id" (by decide) (by decide) (by decide)



/-- The regex class `\w` of the parameter-token pattern
`/:(\w+)(\(.+?\))?/g` in `patternToRegex` (src/src/utils.js:50): ASCII
letters, digits and underscore. -/
def wordChar (c : Char) : Bool := c.isAlpha || c.isDigit || c == '_'

/-- JS `s.replaceAll(c, r)` for a one-character search string: every
occurrence is replaced, left to right, and replacement text is not
rescanned. -/
def replaceAllChar (c : Char) (r : List Char) : List Char → List Char
  | [] => []
  | x :: rest => (if x = c then r else [x]) ++ replaceAllChar c r rest

/-- Helper for the lazy body of `\(.+?\)`: scans for the first `)` in the
input, failing on a line terminator (which `.` does not match); returns the
body read so far and the text after the `)`. -/
def subScan : List Char → Option (List Char × List Char)
  | [] => none
  | c :: rest =>
    if c = ')' then some ([], rest)
    else if c = '\n' then none
    else
      match subScan rest with
      | some (pre, r2) => some (c :: pre, r2)
      | none => none

/-- The optional group `(\(.+?\))?` of the parameter-token pattern
(src/src/utils.js:50), tried directly after a `:name` token: a literal `(`,
then a lazy non-empty run of non-newline characters up to the *first*
possible closing `)` (the run's first character may itself be `)` only if a
later `)` closes the group, hence the separate `b0`), capturing the
parenthesised text.  Returns the captured text (parentheses included, as
capture group 2 does) and the remaining input. -/
def trySub : List Char → Option (List Char × List Char)
  | '(' :: b0 :: rtail =>
    if b0 = '\n' then none
    else
      match subScan rtail with
      | some (pre, rest2) => some ('(' :: b0 :: (pre ++ [')']), rest2)
      | none => none
  | _ => none

theorem subScan_lt : ∀ (l pre r2 : List Char), subScan l = some (pre, r2) → r2.length < l.length := by
  intro l
  induction l with
  | nil => intro pre r2 h; simp [subScan] at h
  | cons c rest ih =>
    intro pre r2 h
    simp only [subScan] at h
    by_cases hc : c = ')'
    · rw [if_pos hc] at h
      injection h with h1
      injection h1 with h2 h3
      subst h3
      simp
    · rw [if_neg hc] at h
      by_cases hn : c = '\n'
      · rw [if_pos hn] at h; exact absurd h (by simp)
      · rw [if_neg hn] at h
        cases hs : subScan rest with
        | none => rw [hs] at h; exact absurd h (by simp)
        | some p =>
          rw [hs] at h
          obtain ⟨pre1, r21⟩ := p
          simp only at h
          have h3 : r21 = r2 := by
            injection h with h1
            injection h1
          subst h3
          exact Nat.lt_succ_of_lt (ih pre1 r21 hs)

theorem trySub_lt : ∀ (l sub r2 : List Char), trySub l = some (sub, r2) → r2.length < l.length := by
  intro l sub r2 h
  match l with
  | [] => simp [trySub] at h
  | [c] => simp [trySub] at h
  | c :: b0 :: rtail =>
    by_cases hc : c = '('
    · subst hc
      simp only [trySub] at h
      by_cases hb : b0 = '\n'
      · rw [if_pos hb] at h; exact absurd h (by simp)
      · rw [if_neg hb] at h
        cases hs : subScan rtail with
        | none => rw [hs] at h; exact absurd h (by simp)
        | some p =>
          rw [hs] at h
          obtain ⟨pre, rr⟩ := p
          simp only at h
          have h3 : rr = r2 := by
            injection h with h1
            injection h1
          subst h3
          have := subScan_lt rtail pre rr hs
          simp only [List.length_cons]
          omega
    · have : trySub (c :: b0 :: rtail) = none := by
        simp [trySub, hc]
      rw [this] at h
      exact absurd h (by simp)

/-- If a list is empty or does not start with '(', the optional subpattern
never matches. -/
theorem trySub_none : ∀ (l : List Char), (l = [] ∨ ∀ c r, l = c :: r → c ≠ '(') →
    trySub l = none := by
  intro l h
  match l with
  | [] => rfl
  | [c] =>
    simp [trySub]
  | c :: b0 :: rtail =>
    have hc : c ≠ '(' := by
      cases h with
      | inl h => exact absurd h (by simp)
      | inr h => exact h c (b0 :: rtail) rfl
    simp [trySub, hc]

/-- Port of the global replace
`.replace(/:(\w+)(\(.+?\))?/g, (m, param, regex) => ...)` of `patternToRegex`
(src/src/utils.js:50-52), scanning left to right: a `:` followed by a
non-empty greedy run of word characters (the name) and an optional
parenthesised subpattern is rewritten to `(?<name>sub($|\/))` when the
subpattern is present and to `(?<name>[^/]+)` otherwise; scanning resumes
after the consumed token (replacement text is not rescanned); a `:` not
followed by a word character is no match, and the scan moves on by one
character.  (The greedy `\w+` never needs backtracking: `(` is not a word
character, so shortening the name can never enable the optional group.)
Structural fuel — one unit per scanned token — keeps the definition
kernel-computable; `paramReplace` supplies adequate fuel and `prFuel` shows
any adequate fuel gives the same result. -/
def paramReplaceF : Nat → List Char → List Char
  | 0, l => l
  | _+1, [] => []
  | f+1, c :: rest =>
    if c = ':' then
      let name := rest.takeWhile wordChar
      if name.length = 0 then ':' :: paramReplaceF f rest
      else
        match trySub (rest.drop name.length) with
        | some (sub, rest2) =>
          ("(?<".data ++ name ++ ('>' :: sub) ++ "($|\\/)".data) ++ (')' :: paramReplaceF f rest2)
        | none =>
          ("(?<".data ++ name ++ ">[^/]+)".data) ++ paramReplaceF f (rest.drop name.length)
    else c :: paramReplaceF f rest

/-- The parameter-token replace at adequate fuel. -/
def paramReplace (l : List Char) : List Char := paramReplaceF l.length l

theorem prF_nil : ∀ f, paramReplaceF f [] = [] := by
  intro f
  cases f with
  | zero => rfl
  | succ f => rfl

theorem prFuel : ∀ (n f g : Nat) (l : List Char), l.length ≤ n → l.length ≤ f →
    l.length ≤ g → paramReplaceF f l = paramReplaceF g l := by
  intro n
  induction n with
  | zero =>
    intro f g l hn _ _
    have : l = [] := List.eq_nil_of_length_eq_zero (Nat.le_zero.mp hn)
    subst this
    rw [prF_nil, prF_nil]
  | succ n ih =>
    intro f g l hn hf hg
    cases l with
    | nil => rw [prF_nil, prF_nil]
    | cons c rest =>
      simp only [List.length_cons] at hn hf hg
      cases f with
      | zero => omega
      | succ f' =>
        cases g with
        | zero => omega
        | succ g' =>
          simp only [paramReplaceF]
          by_cases hc : c = ':'
          · rw [if_pos hc, if_pos hc]
            by_cases hname : (rest.takeWhile wordChar).length = 0
            · rw [if_pos hname, if_pos hname]
              have := ih f' g' rest (by omega) (by omega) (by omega)
              rw [this]
            · rw [if_neg hname, if_neg hname]
              cases hts : trySub (rest.drop (rest.takeWhile wordChar).length) with
              | none =>
                dsimp only
                have hdl : (rest.drop (rest.takeWhile wordChar).length).length ≤ rest.length := by
                  simp [List.length_drop]
                have := ih f' g' (rest.drop (rest.takeWhile wordChar).length)
                  (by omega) (by omega) (by omega)
                rw [this]
              | some p =>
                obtain ⟨sub, rest2⟩ := p
                dsimp only
                have hlt := trySub_lt _ _ _ hts
                have hdl : (rest.drop (rest.takeWhile wordChar).length).length ≤ rest.length := by
                  simp [List.length_drop]
                have := ih f' g' rest2 (by omega) (by omega) (by omega)
                rw [this]
          · rw [if_neg hc, if_neg hc]
            have := ih f' g' rest (by omega) (by omega) (by omega)
            rw [this]




/-- The named parameter tokens of a template: the very same scan as
`paramReplaceF`, collecting each matched `:name` instead of rewriting it.
This is the meaning of "the same named parameter token appears more than
once" for the source's token grammar. -/
def scanParamsF : Nat → List Char → List String
  | 0, _ => []
  | _+1, [] => []
  | f+1, c :: rest =>
    if c = ':' then
      let name := rest.takeWhile wordChar
      if name.length = 0 then scanParamsF f rest
      else
        match trySub (rest.drop name.length) with
        | some (_, rest2) => (⟨name⟩ : String) :: scanParamsF f rest2
        | none => (⟨name⟩ : String) :: scanParamsF f (rest.drop name.length)
    else scanParamsF f rest

/-- The named parameter tokens of a template, at adequate fuel. -/
def scanParams (s : String) : List String := scanParamsF s.data.length s.data

theorem spF_nil : ∀ f, scanParamsF f [] = [] := by
  intro f
  cases f with
  | zero => rfl
  | succ f => rfl

theorem spFuel : ∀ (n f g : Nat) (l : List Char), l.length ≤ n → l.length ≤ f →
    l.length ≤ g → scanParamsF f l = scanParamsF g l := by
  intro n
  induction n with
  | zero =>
    intro f g l hn _ _
    have : l = [] := List.eq_nil_of_length_eq_zero (Nat.le_zero.mp hn)
    subst this
    rw [spF_nil, spF_nil]
  | succ n ih =>
    intro f g l hn hf hg
    cases l with
    | nil => rw [spF_nil, spF_nil]
    | cons c rest =>
      simp only [List.length_cons] at hn hf hg
      cases f with
      | zero => omega
      | succ f' =>
        cases g with
        | zero => omega
        | succ g' =>
          simp only [scanParamsF]
          by_cases hc : c = ':'
          · rw [if_pos hc, if_pos hc]
            by_cases hname : (rest.takeWhile wordChar).length = 0
            · rw [if_pos hname, if_pos hname]
              exact ih f' g' rest (by omega) (by omega) (by omega)
            · rw [if_neg hname, if_neg hname]
              cases hts : trySub (rest.drop (rest.takeWhile wordChar).length) with
              | none =>
                dsimp only
                have hdl : (rest.drop (rest.takeWhile wordChar).length).length ≤ rest.length := by
                  simp [List.length_drop]
                rw [ih f' g' (rest.drop (rest.takeWhile wordChar).length)
                  (by omega) (by omega) (by omega)]
              | some p =>
                obtain ⟨sub, rest2⟩ := p
                dsimp only
                have hlt := trySub_lt _ _ _ hts
                have hdl : (rest.drop (rest.takeWhile wordChar).length).length ≤ rest.length := by
                  simp [List.length_drop]
                rw [ih f' g' rest2 (by omega) (by omega) (by omega)]
          · rw [if_neg hc, if_neg hc]
            exact ih f' g' rest (by omega) (by omega) (by omega)

/-- ECMAScript character-class tokenization: from the character after a
`[`, skip (escape pairs included) to the first unescaped `]`; `none` for an
unterminated class, which is a `SyntaxError`. -/
def skipClass : List Char → Option (List Char)
  | [] => none
  | '\\' :: _ :: rest => skipClass rest
  | ']' :: rest => some rest
  | _ :: rest => skipClass rest

/-- ECMAScript capture-group-name tokenization after `(?<`: a word-character
run up to `>`; `none` when the name would be malformed (`SyntaxError`;
actual group names also admit `$` and Unicode identifier characters, but the
names this development evaluates are `\w+`). -/
def nameScan : List Char → Option (List Char × List Char)
  | [] => none
  | '>' :: r => some ([], r)
  | c :: rest =>
    if wordChar c then (nameScan rest).map fun p => (c :: p.1, p.2) else none

theorem skipClass_le : ∀ (l r : List Char), skipClass l = some r → r.length < l.length := by
  intro l
  induction l using skipClass.induct with
  | case1 => intro r h; simp [skipClass] at h
  | case2 c rest ih =>
    intro r h
    rw [skipClass] at h
    have := ih r h
    simp only [List.length_cons]
    omega
  | case3 rest =>
    intro r h
    rw [skipClass] at h
    injection h with h1
    subst h1
    simp
  | case4 c rest h1 h2 ih =>
    intro r h
    rw [skipClass] at h
    · have := ih r h
      simp only [List.length_cons]
      omega
    · exact h1
    · exact h2

theorem nameScan_le : ∀ (l n r : List Char), nameScan l = some (n, r) → r.length < l.length := by
  intro l
  induction l using nameScan.induct with
  | case1 => intro n r h; simp [nameScan] at h
  | case2 rest =>
    intro n r h
    rw [nameScan] at h
    injection h with h1
    have h2 : rest = r := by injection h1
    subst h2
    simp
  | case3 c rest h1 hw ih =>
    intro n r h
    rw [nameScan] at h
    · rw [if_pos hw] at h
      cases hs : nameScan rest with
      | none => rw [hs] at h; exact absurd h (by simp)
      | some p =>
        obtain ⟨n1, r1⟩ := p
        rw [hs] at h
        dsimp only [Option.map] at h
        have h3 : r1 = r := by
          injection h with h1
          injection h1
        subst h3
        exact Nat.lt_succ_of_lt (ih n1 r1 hs)
    · exact h1
  | case4 c rest h1 hnw =>
    intro n r h
    rw [nameScan] at h
    · rw [if_neg hnw] at h
      exact absurd h (by simp)
    · exact h1




/-- After `(?<`: a lookbehind (`(?<=` / `(?<!`) declares no group, anything
else must be a well-formed non-empty group name. -/
def gnName (r2 : List Char) : Option (List String × List Char) :=
  match r2 with
  | [] => none
  | d :: r3 =>
    if d = '=' then some ([], r3)
    else if d = '!' then some ([], r3)
    else
      match nameScan (d :: r3) with
      | some (n, r4) => if n.isEmpty then none else some ([(⟨n⟩ : String)], r4)
      | none => none

/-- After a `(`: only `(?<` opens a named group (or lookbehind); every
other group form declares no name. -/
def gnGroupOpen (rest : List Char) : Option (List String × List Char) :=
  match rest with
  | d1 :: d2 :: r2 =>
    if d1 = '?' && d2 = '<' then gnName r2 else some ([], rest)
  | _ => some ([], rest)

/-- One tokenization step of the group-name scan on a non-empty pattern
text: an escape pair, a character class, a group opening, or a plain
character. -/
def gnStep : List Char → Option (List String × List Char)
  | [] => none
  | c :: rest =>
    if c = '\\' then
      match rest with
      | [] => none
      | _ :: r2 => some ([], r2)
    else if c = '[' then
      match skipClass rest with
      | none => none
      | some r => some ([], r)
    else if c = '(' then gnGroupOpen rest
    else some ([], rest)

/-- The capture-group names of a regex source text, in order, by the
ECMAScript pattern tokenization (escapes and character classes hide their
contents); `none` when the tokenization itself is a `SyntaxError`. -/
def groupNamesF : Nat → List Char → Option (List String)
  | 0, l => if l.isEmpty then some [] else none
  | f+1, l =>
    match l with
    | [] => some []
    | c :: rest =>
      match gnStep (c :: rest) with
      | none => none
      | some (ns, r) => (groupNamesF f r).map fun more => ns ++ more

/-- Group names at adequate fuel. -/
def groupNames (l : List Char) : Option (List String) := groupNamesF l.length l

theorem gnName_le : ∀ (r2 : List Char) (ns : List String) (r : List Char),
    gnName r2 = some (ns, r) → r.length < r2.length := by
  intro r2 ns r h
  cases r2 with
  | nil => simp [gnName] at h
  | cons d r3 =>
    simp only [gnName] at h
    by_cases h1 : d = '='
    · rw [if_pos h1] at h
      have : r3 = r := by
        injection h with ha
        injection ha
      subst this
      simp
    · rw [if_neg h1] at h
      by_cases h2 : d = '!'
      · rw [if_pos h2] at h
        have : r3 = r := by
          injection h with ha
          injection ha
        subst this
        simp
      · rw [if_neg h2] at h
        cases hs : nameScan (d :: r3) with
        | none => rw [hs] at h; exact absurd h (by simp)
        | some p =>
          obtain ⟨n, r4⟩ := p
          rw [hs] at h
          dsimp only at h
          by_cases hn : n.isEmpty
          · rw [if_pos hn] at h; exact absurd h (by simp)
          · rw [if_neg hn] at h
            have : r4 = r := by
              injection h with ha
              injection ha
            subst this
            exact nameScan_le _ _ _ hs

theorem gnGroupOpen_le : ∀ (rest : List Char) (ns : List String) (r : List Char),
    gnGroupOpen rest = some (ns, r) → r.length ≤ rest.length := by
  intro rest ns r h
  cases rest with
  | nil =>
    simp only [gnGroupOpen] at h
    have : ([] : List Char) = r := by
      injection h with ha
      injection ha
    subst this
    simp
  | cons d1 rtl =>
    cases rtl with
    | nil =>
      simp only [gnGroupOpen] at h
      have : [d1] = r := by
        injection h with ha
        injection ha
      subst this
      simp
    | cons d2 r2 =>
      simp only [gnGroupOpen] at h
      by_cases hq : d1 = '?' && d2 = '<'
      · rw [if_pos hq] at h
        have := gnName_le r2 ns r h
        simp only [List.length_cons]
        omega
      · rw [if_neg hq] at h
        have : d1 :: d2 :: r2 = r := by
          injection h with ha
          injection ha
        subst this
        simp
      
theorem gnStep_le : ∀ (c : Char) (rest : List Char) (ns : List String) (r : List Char),
    gnStep (c :: rest) = some (ns, r) → r.length ≤ rest.length := by
  intro c rest ns r h
  simp only [gnStep] at h
  by_cases h1 : c = '\\'
  · rw [if_pos h1] at h
    cases rest with
    | nil => exact absurd h (by simp)
    | cons d r2 =>
      dsimp only at h
      have : r2 = r := by
        injection h with ha
        injection ha
      subst this
      simp
  · rw [if_neg h1] at h
    by_cases h2 : c = '['
    · rw [if_pos h2] at h
      cases hs : skipClass rest with
      | none => rw [hs] at h; exact absurd h (by simp)
      | some r0 =>
        rw [hs] at h
        dsimp only at h
        have : r0 = r := by
          injection h with ha
          injection ha
        subst this
        exact le_of_lt (skipClass_le rest r0 hs)
    · rw [if_neg h2] at h
      by_cases h3 : c = '('
      · rw [if_pos h3] at h
        exact gnGroupOpen_le rest ns r h
      · rw [if_neg h3] at h
        have : rest = r := by
          injection h with ha
          injection ha
        subst this
        exact le_rfl

theorem gnF_nil : ∀ f, groupNamesF f [] = some [] := by
  intro f
  cases f with
  | zero => rfl
  | succ f => rfl

theorem gnFuel : ∀ (n f g : Nat) (l : List Char), l.length ≤ n → l.length ≤ f →
    l.length ≤ g → groupNamesF f l = groupNamesF g l := by
  intro n
  induction n with
  | zero =>
    intro f g l hn _ _
    have : l = [] := List.eq_nil_of_length_eq_zero (Nat.le_zero.mp hn)
    subst this
    rw [gnF_nil, gnF_nil]
  | succ n ih =>
    intro f g l hn hf hg
    cases l with
    | nil => rw [gnF_nil, gnF_nil]
    | cons c rest =>
      simp only [List.length_cons] at hn hf hg
      cases f with
      | zero => omega
      | succ f' =>
        cases g with
        | zero => omega
        | succ g' =>
          simp only [groupNamesF]
          cases hs : gnStep (c :: rest) with
          | none => rfl
          | some p =>
            obtain ⟨ns, r⟩ := p
            dsimp only
            have hle := gnStep_le c rest ns r hs
            rw [ih f' g' r (by omega) (by omega) (by omega)]

/-- One unfolding of `groupNames` on a non-empty list. -/
theorem gn_cons (c : Char) (rest : List Char) :
    groupNames (c :: rest) =
      match gnStep (c :: rest) with
      | none => none
      | some (ns, r) => (groupNames r).map fun more => ns ++ more := by
  show groupNamesF (rest.length + 1) (c :: rest) = _
  simp only [groupNamesF]
  cases hs : gnStep (c :: rest) with
  | none => rfl
  | some p =>
    obtain ⟨ns, r⟩ := p
    dsimp only
    have hle := gnStep_le c rest ns r hs
    rw [gnFuel rest.length rest.length r.length r (by omega) (by omega) (by omega)]
    rfl




/-- The characters of an ordinary route template: word characters and the
path punctuation `/ . - :`. -/
def plainChar (c : Char) : Bool :=
  wordChar c || c == '/' || c == '.' || c == '-' || c == ':'

/- The following chain of lemmas, culminating in `gn_main` and
`dup_param_fails`, tracks a plain-character template through the exact
transformation pipeline of `patternToRegex` and the group-name scan of the
resulting regex source text. -/

/-- Fused form of the two escaping `replaceAll` passes. -/
def escL : List Char → List Char
  | [] => []
  | c :: rest =>
    (if c = '.' then ['\\', '.'] else if c = '-' then ['\\', '-'] else [c]) ++ escL rest

theorem replaceAllChar_append (c : Char) (r : List Char) :
    ∀ (a b : List Char),
      replaceAllChar c r (a ++ b) = replaceAllChar c r a ++ replaceAllChar c r b := by
  intro a
  induction a with
  | nil => intro b; rfl
  | cons x rest ih =>
    intro b
    show (if x = c then r else [x]) ++ replaceAllChar c r (rest ++ b) =
      ((if x = c then r else [x]) ++ replaceAllChar c r rest) ++ replaceAllChar c r b
    rw [ih b, List.append_assoc]

theorem rA_cons (c : Char) (r : List Char) (x : Char) (l : List Char) :
    replaceAllChar c r (x :: l) = (if x = c then r else [x]) ++ replaceAllChar c r l := rfl

/-- One source character through all three `replaceAll` passes. -/
theorem triple_cons (c : Char) (rest : List Char) (hstar : c ≠ '*') :
    replaceAllChar '*' "(.*)".data
        (replaceAllChar '-' ['\\', '-'] (replaceAllChar '.' ['\\', '.'] (c :: rest))) =
      (if c = '.' then ['\\', '.'] else if c = '-' then ['\\', '-'] else [c]) ++
        replaceAllChar '*' "(.*)".data
          (replaceAllChar '-' ['\\', '-'] (replaceAllChar '.' ['\\', '.'] rest)) := by
  rw [rA_cons]
  by_cases hdot : c = '.'
  · subst hdot
    rw [if_pos rfl, if_pos rfl]
    rw [replaceAllChar_append, replaceAllChar_append]
    congr 1
  · rw [if_neg hdot, if_neg hdot]
    rw [replaceAllChar_append]
    by_cases hdash : c = '-'
    · subst hdash
      rw [if_pos rfl]
      show replaceAllChar '*' _ (['\\', '-'] ++ _) = _
      rw [replaceAllChar_append]
      congr 1
    · rw [if_neg hdash]
      show replaceAllChar '*' _ ((if c = '-' then ['\\', '-'] else [c]) ++ [] ++ _) = _
      rw [if_neg hdash]
      rw [List.append_nil]
      rw [replaceAllChar_append]
      rw [rA_cons]
      rw [if_neg hstar]
      rfl

theorem fuse : ∀ (l : List Char), (∀ c ∈ l, plainChar c = true) →
    replaceAllChar '*' "(.*)".data
      (replaceAllChar '-' ['\\', '-'] (replaceAllChar '.' ['\\', '.'] l)) = escL l := by
  intro l
  induction l with
  | nil => intro h; rfl
  | cons c rest ih =>
    intro h
    have hc : plainChar c = true := h c (by simp)
    have hrest : ∀ x ∈ rest, plainChar x = true := fun x hx => h x (by simp [hx])
    have hstar : c ≠ '*' := by
      intro he
      subst he
      simp [plainChar, wordChar] at hc
    rw [triple_cons c rest hstar, ih hrest]
    rfl

/-- escL of a cons with a plain non-dot non-dash char. -/
theorem escL_cons_id (c : Char) (rest : List Char) (h1 : c ≠ '.') (h2 : c ≠ '-') :
    escL (c :: rest) = c :: escL rest := by
  show (if c = '.' then _ else if c = '-' then _ else [c]) ++ escL rest = _
  rw [if_neg h1, if_neg h2]
  rfl

theorem escTW : ∀ (l : List Char), (escL l).takeWhile wordChar = l.takeWhile wordChar := by
  intro l
  induction l with
  | nil => rfl
  | cons c rest ih =>
    by_cases hdot : c = '.'
    · subst hdot
      show (['\\', '.'] ++ escL rest).takeWhile wordChar = _
      rfl
    · by_cases hdash : c = '-'
      · subst hdash
        show (['\\', '-'] ++ escL rest).takeWhile wordChar = _
        rfl
      · rw [escL_cons_id c rest hdot hdash, List.takeWhile_cons, List.takeWhile_cons, ih]
theorem escDrop : ∀ (l : List Char),
    (escL l).drop (l.takeWhile wordChar).length =
      escL (l.drop (l.takeWhile wordChar).length) := by
  intro l
  induction l with
  | nil => rfl
  | cons c rest ih =>
    by_cases hw : wordChar c
    · have hdot : c ≠ '.' := by
        intro he; subst he; simp [wordChar] at hw
      have hdash : c ≠ '-' := by
        intro he; subst he; simp [wordChar] at hw
      rw [escL_cons_id c rest hdot hdash]
      rw [List.takeWhile_cons, if_pos hw]
      simp only [List.length_cons, List.drop_succ_cons]
      exact ih
    · rw [List.takeWhile_cons, if_neg hw]
      simp

/-- Every head of `escL` of a plain list is a backslash or a plain
character, never an opening parenthesis. -/
theorem escL_head_ne_paren : ∀ (l : List Char), (∀ c ∈ l, plainChar c = true) →
    ∀ d r, escL l = d :: r → d ≠ '(' := by
  intro l hp d r h
  cases l with
  | nil => simp [escL] at h
  | cons c rest =>
    have hc : plainChar c = true := hp c (by simp)
    by_cases hdot : c = '.'
    · subst hdot
      have : d = '\\' := by
        rw [show escL ('.' :: rest) = '\\' :: '.' :: escL rest from rfl] at h
        injection h with h1
        exact h1.symm
      subst this
      decide
    · by_cases hdash : c = '-'
      · subst hdash
        have : d = '\\' := by
          rw [show escL ('-' :: rest) = '\\' :: '-' :: escL rest from rfl] at h
          injection h with h1
          exact h1.symm
        subst this
        decide
      · rw [escL_cons_id c rest hdot hdash] at h
        have : d = c := by
          injection h with h1
          exact h1.symm
        subst this
        intro he
        subst he
        simp [plainChar, wordChar] at hc




theorem plainChar_ne_paren (c : Char) (hc : plainChar c = true) : c ≠ '(' := by
  intro he
  subst he
  exact absurd hc (by decide)

theorem wordChar_not_special (c : Char) (hw : wordChar c = true) :
    c ≠ '>' ∧ c ≠ '=' ∧ c ≠ '!' := by
  refine ⟨?_, ?_, ?_⟩ <;> intro he <;> subst he <;> exact absurd hw (by decide)

theorem drop_takeWhile (p : Char → Bool) :
    ∀ (l : List Char), l.drop (l.takeWhile p).length = l.dropWhile p := by
  intro l
  induction l with
  | nil => rfl
  | cons c rest ih =>
    by_cases hp : p c
    · rw [List.takeWhile_cons, if_pos hp, List.dropWhile_cons_of_pos hp]
      simp only [List.length_cons, List.drop_succ_cons]
      exact ih
    · rw [List.takeWhile_cons, if_neg hp, List.dropWhile_cons_of_neg hp]
      rfl

theorem pr_nil : paramReplace [] = [] := rfl

theorem pr_cons_plain (c : Char) (l : List Char) (hc : c ≠ ':') :
    paramReplace (c :: l) = c :: paramReplace l := by
  show paramReplaceF (l.length + 1) (c :: l) = _
  simp only [paramReplaceF]
  rw [if_neg hc]
  rfl

theorem pr_cons_param (l : List Char) (hn : (l.takeWhile wordChar).length ≠ 0)
    (hts : trySub (l.drop (l.takeWhile wordChar).length) = none) :
    paramReplace (':' :: l) =
      ("(?<".data ++ l.takeWhile wordChar ++ ">[^/]+)".data) ++
        paramReplace (l.drop (l.takeWhile wordChar).length) := by
  show paramReplaceF (l.length + 1) (':' :: l) = _
  simp only [paramReplaceF, if_true]
  rw [if_neg hn, hts]
  dsimp only
  have hdl : (l.drop (l.takeWhile wordChar).length).length ≤ l.length := by
    simp [List.length_drop]
  rw [prFuel l.length l.length (l.drop (l.takeWhile wordChar).length).length
    (l.drop (l.takeWhile wordChar).length) hdl hdl le_rfl]
  rfl

theorem sp_nil : scanParams ⟨[]⟩ = [] := rfl

theorem sp_cons_plain (c : Char) (l : List Char) (hc : c ≠ ':') :
    scanParamsF (l.length + 1) (c :: l) = scanParamsF l.length l := by
  simp only [scanParamsF]
  rw [if_neg hc]

theorem sp_cons_param (l : List Char) (hn : (l.takeWhile wordChar).length ≠ 0)
    (hts : trySub (l.drop (l.takeWhile wordChar).length) = none) :
    scanParamsF (l.length + 1) (':' :: l) =
      (⟨l.takeWhile wordChar⟩ : String) ::
        scanParamsF (l.drop (l.takeWhile wordChar).length).length
          (l.drop (l.takeWhile wordChar).length) := by
  simp only [scanParamsF, if_true]
  rw [if_neg hn, hts]
  dsimp only
  rw [spFuel l.length l.length (l.drop (l.takeWhile wordChar).length).length
    (l.drop (l.takeWhile wordChar).length) (by simp [List.length_drop])
    (by simp [List.length_drop]) le_rfl]

/-- On a plain-character source, the head after the parameter name is never
an opening parenthesis, so the optional subpattern never fires: source
side. -/
theorem trySub_src_none (l : List Char) (hp : ∀ c ∈ l, plainChar c = true) :
    trySub (l.drop (l.takeWhile wordChar).length) = none := by
  rw [drop_takeWhile]
  apply trySub_none
  cases hd : l.dropWhile wordChar with
  | nil => exact Or.inl rfl
  | cons d r =>
    refine Or.inr fun c rr hcr => ?_
    have hcd : d = c := by injection hcr
    subst hcd
    have hmem : d ∈ l := by
      have hm : d ∈ l.dropWhile wordChar := by rw [hd]; simp
      exact (List.dropWhile_sublist wordChar).subset hm
    exact plainChar_ne_paren d (hp d hmem)

/-- Same on the escaped text. -/
theorem trySub_esc_none (l : List Char) (hp : ∀ c ∈ l, plainChar c = true) :
    trySub ((escL l).drop (l.takeWhile wordChar).length) = none := by
  rw [escDrop]
  apply trySub_none
  cases he : escL (l.drop (l.takeWhile wordChar).length) with
  | nil => exact Or.inl rfl
  | cons d r =>
    refine Or.inr fun c rr hcr => ?_
    have hcd : d = c := by injection hcr
    subst hcd
    have hsub : ∀ x ∈ l.drop (l.takeWhile wordChar).length, plainChar x = true := by
      intro x hx
      exact hp x (List.drop_subset _ _ hx)
    exact escL_head_ne_paren _ hsub d r he

/-- `nameScan` reads exactly an all-word-character name up to `>`. -/
theorem nameScanApp : ∀ (n : List Char) (r : List Char), n ≠ [] →
    (∀ c ∈ n, wordChar c = true) → nameScan (n ++ '>' :: r) = some (n, r) := by
  intro n
  induction n with
  | nil => intro r h; exact absurd rfl h
  | cons c n' ih =>
    intro r _ hw
    have hcw : wordChar c = true := hw c (by simp)
    have hne : c ≠ '>' := (wordChar_not_special c hcw).1
    show nameScan (c :: (n' ++ '>' :: r)) = _
    rw [nameScan]
    · rw [if_pos hcw]
      cases hn' : n' with
      | nil =>
        show (nameScan ('>' :: r)).map _ = _
        rw [nameScan]
        rfl
      | cons d n'' =>
        rw [← hn']
        rw [ih r (by rw [hn']; simp) (fun x hx => hw x (by simp [hx]))]
        rfl
    · exact hne




theorem gn_plain (c : Char) (l : List Char) (h1 : c ≠ '\\') (h2 : c ≠ '[')
    (h3 : c ≠ '(') : groupNames (c :: l) = groupNames l := by
  rw [gn_cons]
  have hs : gnStep (c :: l) = some ([], l) := by
    simp only [gnStep]
    rw [if_neg h1, if_neg h2, if_neg h3]
  rw [hs]
  dsimp only
  simp

theorem gn_escape (c : Char) (l : List Char) :
    groupNames ('\\' :: c :: l) = groupNames l := by
  rw [gn_cons]
  have hs : gnStep ('\\' :: c :: l) = some ([], l) := rfl
  rw [hs]
  dsimp only
  simp

theorem gn_class_box (l : List Char) :
    groupNames ('[' :: '^' :: '/' :: ']' :: l) = groupNames l := by
  rw [gn_cons]
  have hs : gnStep ('[' :: '^' :: '/' :: ']' :: l) = some ([], l) := rfl
  rw [hs]
  dsimp only
  simp

theorem gn_group (n : List Char) (l : List Char) (hne : n ≠ [])
    (hw : ∀ c ∈ n, wordChar c = true) :
    groupNames ('(' :: '?' :: '<' :: (n ++ '>' :: ("[^/]+)".data ++ l))) =
      (groupNames l).map fun more => (⟨n⟩ : String) :: more := by
  rw [gn_cons]
  have hname : gnName (n ++ '>' :: ("[^/]+)".data ++ l)) =
      some ([(⟨n⟩ : String)], "[^/]+)".data ++ l) := by
    cases hn : n with
    | nil => exact absurd hn hne
    | cons h t =>
      have hhw : wordChar h = true := hw h (by rw [hn]; simp)
      have hsp := wordChar_not_special h hhw
      show gnName (h :: (t ++ '>' :: ("[^/]+)".data ++ l))) = _
      simp only [gnName]
      rw [if_neg hsp.2.1, if_neg hsp.2.2]
      have hns : nameScan (h :: (t ++ '>' :: ("[^/]+)".data ++ l))) =
          some (h :: t, "[^/]+)".data ++ l) := by
        have := nameScanApp (h :: t) ("[^/]+)".data ++ l) (by simp)
          (fun x hx => hw x (by rw [hn]; exact hx))
        simpa using this
      rw [hns]
      dsimp only
      rw [if_neg (by simp)]
  have hs : gnStep ('(' :: '?' :: '<' :: (n ++ '>' :: ("[^/]+)".data ++ l))) =
      gnName (n ++ '>' :: ("[^/]+)".data ++ l)) := rfl
  rw [hs, hname]
  dsimp only
  have hbox : groupNames ("[^/]+)".data ++ l) = groupNames l := by
    show groupNames ('[' :: '^' :: '/' :: ']' :: ('+' :: ')' :: l)) = _
    rw [gn_class_box]
    rw [gn_plain '+' _ (by decide) (by decide) (by decide)]
    rw [gn_plain ')' _ (by decide) (by decide) (by decide)]
  rw [hbox]
  cases groupNames l <;> rfl

theorem gn_nil : groupNames [] = some [] := rfl

theorem gn_dollar : groupNames ['$'] = some [] := rfl

theorem gn_look_tail : groupNames "(?=$|\\/)".data = some [] := by decide




theorem plainChar_not_special (c : Char) (hc : plainChar c = true) :
    c ≠ '\\' ∧ c ≠ '[' ∧ c ≠ '(' := by
  refine ⟨?_, ?_, ?_⟩ <;> intro he <;> subst he <;> exact absurd hc (by decide)

theorem pr_cons_colon_empty (l : List Char) (hn : (l.takeWhile wordChar).length = 0) :
    paramReplace (':' :: l) = ':' :: paramReplace l := by
  show paramReplaceF (l.length + 1) (':' :: l) = _
  simp only [paramReplaceF, if_true]
  rw [if_pos hn]
  rfl

theorem sp_cons_colon_empty (l : List Char) (hn : (l.takeWhile wordChar).length = 0) :
    scanParamsF (l.length + 1) (':' :: l) = scanParamsF l.length l := by
  simp only [scanParamsF, if_true]
  rw [if_pos hn]

theorem gn_main : ∀ (n : Nat) (l : List Char), l.length ≤ n →
    (∀ c ∈ l, plainChar c = true) →
    ∀ t, (t = ['$'] ∨ t = "(?=$|\\/)".data) →
    groupNames (paramReplace (escL l) ++ t) = some (scanParamsF l.length l) := by
  intro n
  induction n with
  | zero =>
    intro l hl hp t ht
    have : l = [] := List.eq_nil_of_length_eq_zero (Nat.le_zero.mp hl)
    subst this
    show groupNames (paramReplace [] ++ t) = some []
    rw [pr_nil]
    cases ht with
    | inl h => subst h; exact gn_dollar
    | inr h => subst h; exact gn_look_tail
  | succ n ih =>
    intro l hl hp t ht
    cases l with
    | nil =>
      show groupNames (paramReplace [] ++ t) = some []
      rw [pr_nil]
      cases ht with
      | inl h => subst h; exact gn_dollar
      | inr h => subst h; exact gn_look_tail
    | cons c rest =>
      simp only [List.length_cons] at hl
      have hcp : plainChar c = true := hp c (by simp)
      have hrest : ∀ x ∈ rest, plainChar x = true := fun x hx => hp x (by simp [hx])
      by_cases hdot : c = '.'
      · subst hdot
        show groupNames (paramReplace ('\\' :: '.' :: escL rest) ++ t) = _
        rw [pr_cons_plain _ _ (by decide), pr_cons_plain _ _ (by decide)]
        show groupNames ('\\' :: '.' :: (paramReplace (escL rest) ++ t)) = _
        rw [gn_escape]
        rw [ih rest (by omega) hrest t ht]
        simp only [List.length_cons]
        rw [sp_cons_plain '.' rest (by decide)]
      · by_cases hdash : c = '-'
        · subst hdash
          show groupNames (paramReplace ('\\' :: '-' :: escL rest) ++ t) = _
          rw [pr_cons_plain _ _ (by decide), pr_cons_plain _ _ (by decide)]
          show groupNames ('\\' :: '-' :: (paramReplace (escL rest) ++ t)) = _
          rw [gn_escape]
          rw [ih rest (by omega) hrest t ht]
          simp only [List.length_cons]
          rw [sp_cons_plain '-' rest (by decide)]
        · by_cases hcolon : c = ':'
          · subst hcolon
            rw [escL_cons_id ':' rest (by decide) (by decide)]
            by_cases hname : (rest.takeWhile wordChar).length = 0
            · have hname' : ((escL rest).takeWhile wordChar).length = 0 := by
                rw [escTW]; exact hname
              rw [pr_cons_colon_empty (escL rest) hname']
              show groupNames (':' :: (paramReplace (escL rest) ++ t)) = _
              rw [gn_plain ':' _ (by decide) (by decide) (by decide)]
              rw [ih rest (by omega) hrest t ht]
              simp only [List.length_cons]
              rw [sp_cons_colon_empty rest hname]
            · have hname' : ((escL rest).takeWhile wordChar).length ≠ 0 := by
                rw [escTW]; exact hname
              have hts' : trySub ((escL rest).drop ((escL rest).takeWhile wordChar).length) = none := by
                rw [escTW]
                exact trySub_esc_none rest hrest
              rw [pr_cons_param (escL rest) hname' hts']
              rw [escTW, escDrop]
              set name := rest.takeWhile wordChar with hnm
              set rest' := rest.drop name.length with hr'
              have hplain' : ∀ x ∈ rest', plainChar x = true := by
                intro x hx
                exact hrest x (List.drop_subset _ _ hx)
              have hlen' : rest'.length ≤ n := by
                have : rest'.length ≤ rest.length := by
                  rw [hr']; simp [List.length_drop]
                omega
              have hword : ∀ x ∈ name, wordChar x = true := by
                intro x hx
                exact List.mem_takeWhile_imp hx
              have hnne : name ≠ [] := by
                intro he
                apply hname
                rw [he]
                rfl
              -- reassociate into the gn_group shape
              have hshape :
                  ("(?<".data ++ name ++ ">[^/]+)".data) ++ (paramReplace (escL rest') ++ t) =
                  '(' :: '?' :: '<' :: (name ++ '>' ::
                    ("[^/]+)".data ++ (paramReplace (escL rest') ++ t))) := by
                simp
              rw [List.append_assoc]
              rw [hshape]
              rw [gn_group name _ hnne hword]
              rw [ih rest' hlen' hplain' t ht]
              simp only [List.length_cons]
              rw [sp_cons_param rest hname (trySub_src_none rest hrest)]
              rfl
          · -- plain pass-through character
            rw [escL_cons_id c rest hdot hdash]
            rw [pr_cons_plain c _ hcolon]
            show groupNames (c :: (paramReplace (escL rest) ++ t)) = _
            have hns := plainChar_not_special c hcp
            rw [gn_plain c _ hns.1 hns.2.1 hns.2.2]
            rw [ih rest (by omega) hrest t ht]
            simp only [List.length_cons]
            rw [sp_cons_plain c rest hcolon]




/-- Port of `patternToRegex` (src/src/utils.js:38-55) for string patterns
(a `RegExp` instance is returned unchanged by the source and is outside the
pattern-compilation claims): the regex source text handed to `new RegExp`.
The empty-prefix special case hands over the empty source; otherwise `.`
and `-` are escaped, `*` becomes `(.*)`, each `:name` token becomes a named
capture group, and the text is wrapped in `^...$` (full match) or
`^...(?=$|\/)` (prefix match). -/
def patternToRegexSource (pattern : String) (isPre : Bool) : String :=
  if isPre && pattern == "" then ""
  else
    let r1 := replaceAllChar '.' ['\\', '.'] pattern.data
    let r2 := replaceAllChar '-' ['\\', '-'] r1
    let r3 := replaceAllChar '*' "(.*)".data r2
    ⟨'^' :: (paramReplace r3 ++ (if isPre then "(?=$|\\/)".data else ['$']))⟩

/-- Some name occurs twice in the list. -/
def hasDupNames : List String → Bool
  | [] => false
  | n :: rest => rest.contains n || hasDupNames rest

/-- Whether `new RegExp(src)` raises a `SyntaxError` because of its named
capture groups: the ECMAScript early errors "duplicate capture group name"
and malformed group-name / unterminated-class tokenization, which are the
only construction-time failures the patterns examined here can exhibit.
(Other syntax errors, such as unbalanced parentheses, are not modelled and
are exercised by no theorem.  Engines with the ES2025 duplicate-named-group
relaxation still reject duplicates within one alternative path, which
covers every pattern quantified over below, none of which contains `|`.) -/
def newRegExpFails (src : String) : Bool :=
  match groupNames src.data with
  | none => true
  | some ns => hasDupNames ns

/-- C3, amended: for every route template built from word characters and
the path punctuation `/ . - :` (so in particular every template of the
shape `/seg/:a/:b-c.d`) in which the same named parameter token appears
more than once, and for either compilation mode, the `RegExp` construction
inside `patternToRegex` raises at compile (route-registration) time — the
regex engine's `SyntaxError` for a duplicate capture group name, there
being no dedicated `PatternError` in the code — and the failure is never
deferred to request-time matching.  Templates with further regex
punctuation can evade the check entirely (see `dup_param_not_detected`). -/
theorem dup_param_fails (s : String) (isPre : Bool)
    (hp : ∀ c ∈ s.data, plainChar c = true)
    (hd : hasDupNames (scanParams s) = true) :
    newRegExpFails (patternToRegexSource s isPre) = true := by
  by_cases hemp : (isPre && s == "") = true
  · have hs : s = "" := by
      have := (Bool.and_eq_true _ _).mp hemp
      exact eq_of_beq this.2
    subst hs
    exact absurd hd (by decide)
  · unfold patternToRegexSource
    rw [if_neg (by simpa using hemp)]
    dsimp only
    rw [fuse s.data hp]
    unfold newRegExpFails
    have hgn : groupNames ('^' :: (paramReplace (escL s.data) ++
        (if isPre then "(?=$|\\/)".data else ['$']))) = some (scanParams s) := by
      rw [gn_plain '^' _ (by decide) (by decide) (by decide)]
      exact gn_main s.data.length s.data le_rfl hp _
        (by cases isPre <;> simp)
    rw [show (String.mk ('^' :: (paramReplace (escL s.data) ++
      (if isPre then "(?=$|\\/)".data else ['$'])))).data =
      '^' :: (paramReplace (escL s.data) ++
      (if isPre then "(?=$|\\/)".data else ['$'])) from rfl]
    rw [hgn]
    exact hd

/-- Witness for C3 (amended) at the template `/:id/:id`. -/
theorem dup_param_fails_witness :
    newRegExpFails (patternToRegexSource "/:id/:id" false) = true :=
  dup_param_fails "/:id/:id" false (by decide) (by decide)

/-- C3, counterexample: in the template `:x([):x(])` the named parameter
token `:x` appears twice (the token scan yields `["x", "x"]`), yet
compilation does **not** fail: the template's own `[` ends up inside the
first rewritten subpattern, the resulting character class
`[)($|\/))(?<x>(]` swallows the second `(?<x>` group opening, and the
generated source `^(?<x>([)($|\/))(?<x>(])($|\/))$` is a valid regex with a
single named group, so `new RegExp` succeeds and no error is ever raised —
at compile time or any other time. -/
theorem dup_param_not_detected :
    scanParams ":x([):x(])" = ["x", "x"] ∧
    newRegExpFails (patternToRegexSource ":x([):x(])" false) = false :=
  ⟨by decide, by decide⟩

inductive RAtom where
  | lit (c : Char)
  | anyc
  | cls (neg : Bool) (cs : List Char)
  | start
  | eend
  | look (neg : Bool) (alts : List (List RAtom))
  | grp (alts : List (List RAtom))
  | star (a : RAtom)
  | plus (a : RAtom)
  | opt (a : RAtom)
deriving Repr

/-- Class body after `[` (or `[^`): plain and escaped characters up to the
first unescaped `]`; a `-` (range syntax) is outside the supported subset
and rejected, as is an unterminated class. -/
def clsScan : List Char → Option (List Char × List Char)
  | [] => none
  | ']' :: r => some ([], r)
  | '\\' :: c :: r => (clsScan r).map fun p => (c :: p.1, p.2)
  | '-' :: _ => none
  | c :: r => (clsScan r).map fun p => (c :: p.1, p.2)

/-- Result of one parser entry point. -/
inductive PRes where
  | alts (as : List (List RAtom))
  | seq (as : List RAtom)
  | atom (a : RAtom)

/-- Parser entry points: alternation, sequence, single (quantified) atom.
One merged fuel-indexed function keeps the parser kernel-computable. -/
inductive PTask where
  | alts
  | seq
  | atom

/-- Recursive-descent parser for the regex subset; `none` for inputs
outside the subset.  `parseRun f .alts src` with adequate fuel parses a
whole pattern when it returns an empty remainder. -/
def parseRun : Nat → PTask → List Char → Option (PRes × List Char)
  | 0, _, _ => none
  | f+1, .alts, l =>
    match parseRun f .seq l with
    | some (.seq seq, '|' :: r2) =>
      match parseRun f .alts r2 with
      | some (.alts alts, r3) => some (.alts (seq :: alts), r3)
      | _ => none
    | some (.seq seq, rest) => some (.alts [seq], rest)
    | _ => none
  | f+1, .seq, l =>
    match l with
    | [] => some (.seq [], [])
    | ')' :: _ => some (.seq [], l)
    | '|' :: _ => some (.seq [], l)
    | _ =>
      match parseRun f .atom l with
      | some (.atom a, rest) =>
        let p2 :=
          match rest with
          | '*' :: '?' :: r => (RAtom.star a, r)
          | '*' :: r => (RAtom.star a, r)
          | '+' :: '?' :: r => (RAtom.plus a, r)
          | '+' :: r => (RAtom.plus a, r)
          | '?' :: '?' :: r => (RAtom.opt a, r)
          | '?' :: r => (RAtom.opt a, r)
          | r => (a, r)
        match parseRun f .seq p2.2 with
        | some (.seq as, rest3) => some (.seq (p2.1 :: as), rest3)
        | _ => none
      | _ => none
  | f+1, .atom, l =>
    match l with
    | [] => none
    | '^' :: r => some (.atom .start, r)
    | '$' :: r => some (.atom .eend, r)
    | '.' :: r => some (.atom .anyc, r)
    | '\\' :: c :: r => if wordChar c then none else some (.atom (.lit c), r)
    | '\\' :: [] => none
    | '[' :: '^' :: r =>
      match clsScan r with
      | some (cs, rest) => some (.atom (.cls true cs), rest)
      | none => none
    | '[' :: r =>
      match clsScan r with
      | some (cs, rest) => some (.atom (.cls false cs), rest)
      | none => none
    | '(' :: '?' :: ':' :: r =>
      match parseRun f .alts r with
      | some (.alts alts, ')' :: rest) => some (.atom (.grp alts), rest)
      | _ => none
    | '(' :: '?' :: '=' :: r =>
      match parseRun f .alts r with
      | some (.alts alts, ')' :: rest) => some (.atom (.look false alts), rest)
      | _ => none
    | '(' :: '?' :: '!' :: r =>
      match parseRun f .alts r with
      | some (.alts alts, ')' :: rest) => some (.atom (.look true alts), rest)
      | _ => none
    | '(' :: '?' :: '<' :: r =>
      match r with
      | '=' :: _ => none
      | '!' :: _ => none
      | _ =>
        match nameScan r with
        | some (n, r2) =>
          if n.isEmpty then none
          else
            match parseRun f .alts r2 with
            | some (.alts alts, ')' :: rest) => some (.atom (.grp alts), rest)
            | _ => none
        | none => none
    | '(' :: '?' :: _ => none
    | '(' :: r =>
      match parseRun f .alts r with
      | some (.alts alts, ')' :: rest) => some (.atom (.grp alts), rest)
      | _ => none
    | '*' :: _ => none
    | '+' :: _ => none
    | '?' :: _ => none
    | c :: r => some (.atom (.lit c), r)

/-- Matcher work items (atom / alternation / sequence, plus list-valued
continuations for sequencing and Kleene iteration), merged into one
fuel-indexed function so that matching is kernel-computable. -/
inductive MTask where
  | atom (a : RAtom) (pos : Nat)
  | alts (as : List (List RAtom)) (pos : Nat)
  | seq (as : List RAtom) (pos : Nat)
  | seqList (as : List RAtom) (ends : List Nat)
  | star (a : RAtom) (pos : Nat)
  | starList (a : RAtom) (ends : List Nat)

/-- Backtracking regex matcher: all end positions of a match of the given
construct starting at `pos` in `input`; `none` on fuel exhaustion (so a
`some` verdict is trustworthy).  Kleene iteration demands strict progress
per round, as the JS engine's empty-match rule does. -/
def mRun : Nat → List Char → MTask → Option (List Nat)
  | 0, _, _ => none
  | f+1, input, t =>
    match t with
    | .atom a pos =>
      match a with
      | .lit c =>
        match input.drop pos with
        | d :: _ => if d = c then some [pos+1] else some []
        | [] => some []
      | .anyc =>
        match input.drop pos with
        | d :: _ => if d = '\n' then some [] else some [pos+1]
        | [] => some []
      | .cls neg cs =>
        match input.drop pos with
        | d :: _ =>
          if (if neg then !(cs.contains d) else cs.contains d) then some [pos+1] else some []
        | [] => some []
      | .start => if pos = 0 then some [pos] else some []
      | .eend => if pos = input.length then some [pos] else some []
      | .look negl alts =>
        match mRun f input (.alts alts pos) with
        | none => none
        | some ends =>
          if negl then (if ends.isEmpty then some [pos] else some [])
          else (if ends.isEmpty then some [] else some [pos])
      | .grp alts => mRun f input (.alts alts pos)
      | .star a1 => mRun f input (.star a1 pos)
      | .plus a1 =>
        match mRun f input (.atom a1 pos) with
        | none => none
        | some ends => mRun f input (.starList a1 ends)
      | .opt a1 =>
        match mRun f input (.atom a1 pos) with
        | none => none
        | some ends => some (pos :: ends)
    | .star a pos =>
      match mRun f input (.atom a pos) with
      | none => none
      | some ends =>
        match mRun f input (.starList a (ends.filter fun e => pos < e)) with
        | none => none
        | some more => some (pos :: more)
    | .starList _ [] => some []
    | .starList a (e :: es) =>
      match mRun f input (.star a e), mRun f input (.starList a es) with
      | some xs, some ys => some (xs ++ ys)
      | _, _ => none
    | .seq [] pos => some [pos]
    | .seq (a :: as) pos =>
      match mRun f input (.atom a pos) with
      | none => none
      | some ends => mRun f input (.seqList as ends)
    | .seqList _ [] => some []
    | .seqList as (e :: es) =>
      match mRun f input (.seq as e), mRun f input (.seqList as es) with
      | some xs, some ys => some (xs ++ ys)
      | _, _ => none
    | .alts [] _ => some []
    | .alts (alt :: alts) pos =>
      match mRun f input (.seq alt pos), mRun f input (.alts alts pos) with
      | some xs, some ys => some (xs ++ ys)
      | _, _ => none

/-- JS `regex.test(input)`: try every start position. -/
def tryStarts (fuel : Nat) (input : List Char) (alts : List (List RAtom)) :
    List Nat → Option Bool
  | [] => some false
  | i :: is =>
    match mRun fuel input (.alts alts i) with
    | none => none
    | some [] => tryStarts fuel input alts is
    | some (_ :: _) => some true

/-- `new RegExp(src).test(input)` for the supported subset, with generous
fuel: `some b` is a definite verdict, `none` means unsupported syntax or
exhausted fuel, never a wrong answer. -/
def jsRegexTest (src input : String) : Option Bool :=
  match parseRun (4 * (src.data.length + 4)) .alts src.data with
  | some (.alts alts, []) =>
    tryStarts (4 * (src.data.length + input.data.length + 4)) input.data alts
      (List.range (input.data.length + 1))
  | _ => none


/-- C8: prefix compilation anchors only at the start and requires the match
to be followed by end-of-input or a path separator: the source compiled by
`patternToRegex("/files", true)` is `^/files(?=$|\/)`, and its matcher
accepts `/files` and `/files/x` but rejects `/filesystem`. -/
theorem prefix_pattern_matching :
    patternToRegexSource "/files" true = "^/files(?=$|\\/)" ∧
    jsRegexTest (patternToRegexSource "/files" true) "/files" = some true ∧
    jsRegexTest (patternToRegexSource "/files" true) "/files/x" = some true ∧
    jsRegexTest (patternToRegexSource "/files" true) "/filesystem" = some false :=
  ⟨by decide, by decide, by decide, by decide⟩



/-- Value of one hex digit of a percent escape (case-insensitive). -/
def hexVal (c : Char) : Option Nat :=
  if c.isDigit then some (c.toNat - 48)
  else
    let low := c.toLower
    if 'a' ≤ low && low ≤ 'f' then some (low.toNat - 87) else none

/-- Modelled from the spec: the percent- and plus-decoding shared by both
query parsers (`decodeURIComponent`-style byte decoding with `+` as space;
a malformed escape is kept literally; multi-byte UTF-8 sequences are beyond
the spec's level of detail and both models decode them bytewise
identically, so the comparison below is unaffected). -/
def pctDecode : List Char → List Char
  | [] => []
  | '%' :: a :: b :: rest =>
    match hexVal a, hexVal b with
    | some x, some y => Char.ofNat (16 * x + y) :: pctDecode rest
    | _, _ => '%' :: pctDecode (a :: b :: rest)
  | '+' :: rest => ' ' :: pctDecode rest
  | c :: rest => c :: pctDecode rest

/-- JS `q.split('&')` (the default pair delimiter of both parsers). -/
def splitAmp : List Char → List (List Char)
  | [] => [[]]
  | c :: rest =>
    if c = '&' then [] :: splitAmp rest
    else
      match splitAmp rest with
      | t :: ts => (c :: t) :: ts
      | [] => [[c]]

/-- Split one `key=value` pair at the *first* `=`, as both parsers do; a
pair without `=` gets the empty value. -/
def eqSplit (p : List Char) : List Char × List Char :=
  let k := p.takeWhile fun c => c ≠ '='
  let r := p.drop k.length
  match r with
  | '=' :: v => (k, v)
  | _ => (k, [])

/-- A parsed query value: a string, a sequence (repeated keys), or a nested
object (`ParsedQuery` of the spec). -/
inductive QVal where
  | str (s : String)
  | arr (vs : List QVal)
  | obj (m : List (String × QVal))
deriving Repr

/-- Lookup in an insertion-ordered association list. -/
def qLookup (k : String) : List (String × QVal) → Option QVal
  | [] => none
  | (k', v) :: rest => if k' = k then some v else qLookup k rest

/-- In-place update in an insertion-ordered association list. -/
def qUpdate (k : String) (v : QVal) : List (String × QVal) → List (String × QVal)
  | [] => []
  | (k', v') :: rest => if k' = k then (k', v) :: rest else (k', v') :: qUpdate k v rest

/-- Repeated-key merging common to both parsers: a second scalar for the
same key turns the entry into a sequence, later ones append. -/
def leafMerge : Option QVal → String → QVal
  | none, v => .str v
  | some (.str s0), v => .arr [.str s0, .str v]
  | some (.arr vs), v => .arr (vs ++ [.str v])
  | some other, v => .arr [other, .str v]

/-- One `key=value` assignment of the flat parser. -/
def flatAssign (m : List (String × QVal)) (k : String) (v : String) :
    List (String × QVal) :=
  match qLookup k m with
  | none => m ++ [(k, .str v)]
  | some old => qUpdate k (leafMerge (some old) v) m

/-- Modelled from the spec: the flat fast-path parser (the
`fast-querystring` dependency, not part of this repository's sources): a
plain `key=value` parser with no nesting support; keys and values are
percent-decoded whole; empty pairs are dropped. -/
def fqParse (q : String) : List (String × QVal) :=
  (splitAmp q.data).foldl
    (fun m p =>
      if p.isEmpty then m
      else
        let kv := eqSplit p
        flatAssign m ⟨pctDecode kv.1⟩ ⟨pctDecode kv.2⟩)
    []

/-- Modelled from the spec: bracket-segment scan of the nested parser's
keys, honoring the maximum nesting depth (default 5); the remainder beyond
the depth, or after malformed brackets, stays one literal segment. -/
def qsSegs : Nat → List Char → List (List Char)
  | _, [] => []
  | 0, rest => [rest]
  | d+1, '[' :: r =>
    let seg := r.takeWhile fun c => c ≠ ']'
    match r.drop seg.length with
    | ']' :: r3 => seg :: qsSegs d r3
    | _ => ['[' :: r]
  | _+1, rest => [rest]

/-- Modelled from the spec: a nested-parser key as a path — the parent text
up to the first `[`, then the bracket segments; splitting happens on the
raw text and each segment is percent-decoded afterwards, as the full parser
does (so a percent-encoded bracket does *not* nest). -/
def qsKeyPath (k : List Char) : List String :=
  let parent := k.takeWhile fun c => c ≠ '['
  (⟨pctDecode parent⟩ : String) ::
    (qsSegs 5 (k.drop parent.length)).map fun s => (⟨pctDecode s⟩ : String)

/-- Modelled from the spec: the nested parser's assignment along a key
path, creating nested objects, with the same repeated-key merging at the
leaves. -/
def qsAssign : Nat → List (String × QVal) → List String → String → List (String × QVal)
  | _, m, [], _ => m
  | _, m, [k], v =>
    (match qLookup k m with
    | none => m ++ [(k, .str v)]
    | some old => qUpdate k (leafMerge (some old) v) m)
  | 0, m, _, _ => m
  | d+1, m, k :: ks, v =>
    match qLookup k m with
    | some (.obj sub) => qUpdate k (.obj (qsAssign d sub ks v)) m
    | some _ => qUpdate k (.obj (qsAssign d [] ks v)) m
    | none => m ++ [(k, .obj (qsAssign d [] ks v))]

/-- Modelled from the spec: the full nested parser (the `qs` dependency,
not part of this repository's sources) at the default options the
dispatcher's caller uses (`&` delimiter, bracket notation, depth 5). -/
def qsParse (q : String) : List (String × QVal) :=
  (splitAmp q.data).foldl
    (fun m p =>
      if p.isEmpty then m
      else
        let kv := eqSplit p
        qsAssign (kv.1.length + 1) m (qsKeyPath kv.1) ⟨pctDecode kv.2⟩)
    []

/-- Port of `fastQueryParse` (src/src/utils.js:25-32): the flat parser for
query strings of at most 128 UTF-16 units containing none of `[`, `%5B`,
`.`, `%2E`; the full parser otherwise. -/
def fastQueryParse (q : String) : List (String × QVal) :=
  if q.length ≤ 128 &&
      !containsSub "[" q && !containsSub "%5B" q &&
      !containsSub "." q && !containsSub "%2E" q then
    fqParse q
  else
    qsParse q




theorem splitAmp_ne_nil : ∀ (l : List Char), splitAmp l ≠ [] := by
  intro l
  cases l with
  | nil => simp [splitAmp]
  | cons c rest =>
    simp only [splitAmp]
    by_cases hc : c = '&'
    · simp [hc]
    · rw [if_neg hc]
      cases hs : splitAmp rest with
      | nil => simp
      | cons t ts => simp

theorem mem_splitAmp : ∀ (l : List Char) (p : List Char), p ∈ splitAmp l →
    ∀ c ∈ p, c ∈ l := by
  intro l
  induction l with
  | nil =>
    intro p hp c hc
    simp [splitAmp] at hp
    subst hp
    simp at hc
  | cons a rest ih =>
    intro p hp c hc
    simp only [splitAmp] at hp
    by_cases ha : a = '&'
    · rw [if_pos ha] at hp
      cases hp with
      | head => simp at hc
      | tail _ hmem => exact List.mem_cons_of_mem a (ih p hmem c hc)
    · rw [if_neg ha] at hp
      cases hs : splitAmp rest with
      | nil => exact absurd hs (splitAmp_ne_nil rest)
      | cons t ts =>
        rw [hs] at hp
        cases hp with
        | head =>
          cases hc with
          | head => simp
          | tail _ hct =>
            have ht : t ∈ splitAmp rest := by rw [hs]; simp
            exact List.mem_cons_of_mem a (ih t ht c hct)
        | tail _ hmem =>
          have hpt : p ∈ splitAmp rest := by rw [hs]; exact List.mem_cons_of_mem t hmem
          exact List.mem_cons_of_mem a (ih p hpt c hc)

theorem singletonInfixOfMem {c : Char} {l : List Char}
    (h : c ∈ l) : [c] <:+: l := by
  induction l with
  | nil => simp at h
  | cons x xs ih =>
    cases h with
    | head => exact ⟨[], xs, by simp⟩
    | tail _ hmem =>
      obtain ⟨s, t, hst⟩ := ih hmem
      exact ⟨x :: s, t, by rw [List.cons_append, List.cons_append, hst]⟩

theorem takeWhile_all {p : Char → Bool} : ∀ (l : List Char),
    (∀ c ∈ l, p c = true) → l.takeWhile p = l := by
  intro l h
  induction l with
  | nil => rfl
  | cons c rest ih =>
    rw [List.takeWhile_cons, if_pos (h c (by simp))]
    rw [ih fun x hx => h x (by simp [hx])]

theorem qsKeyPath_flat (k : List Char) (hk : '[' ∉ k) :
    qsKeyPath k = [(⟨pctDecode k⟩ : String)] := by
  unfold qsKeyPath
  have htw : k.takeWhile (fun c => c ≠ '[') = k := by
    apply takeWhile_all
    intro c hc
    simp only [decide_eq_true_eq]
    intro he
    subst he
    exact hk hc
  dsimp only
  rw [htw, List.drop_length]
  rfl

theorem qsAssign_singleton (d : Nat) (m : List (String × QVal)) (k : String) (v : String) :
    qsAssign d m [k] v = flatAssign m k v := by
  cases d <;> rfl

theorem eqSplit_fst (p : List Char) :
    (eqSplit p).1 = p.takeWhile fun c => c ≠ '=' := by
  unfold eqSplit
  dsimp only
  split <;> rfl

theorem fold_agree : ∀ (parts : List (List Char)) (m : List (String × QVal)),
    (∀ p ∈ parts, '[' ∉ p) →
    parts.foldl
      (fun m p =>
        if p.isEmpty then m
        else
          let kv := eqSplit p
          flatAssign m ⟨pctDecode kv.1⟩ ⟨pctDecode kv.2⟩) m =
    parts.foldl
      (fun m p =>
        if p.isEmpty then m
        else
          let kv := eqSplit p
          qsAssign (kv.1.length + 1) m (qsKeyPath kv.1) ⟨pctDecode kv.2⟩) m := by
  intro parts
  induction parts with
  | nil => intro m h; rfl
  | cons p rest ih =>
    intro m h
    simp only [List.foldl_cons]
    have hp : '[' ∉ p := h p (by simp)
    have hrest : ∀ x ∈ rest, '[' ∉ x := fun x hx => h x (by simp [hx])
    by_cases hemp : p.isEmpty
    · rw [if_pos hemp, if_pos hemp]
      exact ih m hrest
    · rw [if_neg hemp, if_neg hemp]
      have hk : '[' ∉ (eqSplit p).1 := by
        intro hmem
        apply hp
        rw [eqSplit_fst] at hmem
        exact (List.takeWhile_prefix _).subset hmem
      rw [qsKeyPath_flat _ hk, qsAssign_singleton]
      exact ih _ hrest

/-- C5: on every fast-path-eligible query string — length at most 128 and
none of the substrings `[`, `%5B`, `.`, `%2E` — the flat parser and the
full nested parser produce equal output, so `fastQueryParse`'s choice of
parser is unobservable there. -/
theorem query_fast_path_agrees (q : String)
    (h : (decide (q.length ≤ 128) && !containsSub "[" q && !containsSub "%5B" q &&
          !containsSub "." q && !containsSub "%2E" q) = true) :
    fqParse q = qsParse q ∧ fastQueryParse q = qsParse q := by
  have hbr : ¬ ("[".data <:+: q.data) := by
    intro hinf
    have h2 : containsSub "[" q = true := by
      unfold containsSub
      exact decide_eq_true hinf
    simp [h2] at h
  have hnomem : '[' ∉ q.data := fun hmem => hbr (singletonInfixOfMem hmem)
  have hparts : ∀ p ∈ splitAmp q.data, '[' ∉ p := by
    intro p hp hmem
    exact hnomem (mem_splitAmp q.data p hp '[' hmem)
  have hfq : fqParse q = qsParse q := by
    unfold fqParse qsParse
    exact fold_agree (splitAmp q.data) [] hparts
  refine ⟨hfq, ?_⟩
  unfold fastQueryParse
  rw [if_pos h]
  exact hfq

/-- Witness for C5 at the spec's own example `a=1&b=2`. -/
theorem query_fast_path_agrees_witness :
    fqParse "a=1&b=2" = qsParse "a=1&b=2" ∧
    fastQueryParse "a=1&b=2" = qsParse "a=1&b=2" :=
  query_fast_path_agrees "a=1&b=2" (by decide)

end USpec
